import Mathlib

/-!
Verification of the trace grouping/ungrouping converter and the logging
exporter of the opentelemetry-collector repository.

The converter (`toWire` / `toInternal`) is exercised by
`internal/testdata/trace_test.go`; its implementation lives outside the
provided sources, so the definitions below are modelled from the spec
(sections 3 and 4 of spec.md).  The logging exporter definitions are
translated from `exporter/loggingexporter/logging_exporter.go`.
-/

namespace Otel

/-- An attribute key/value pair. -/
abbrev AttrKV := String × String

/-- Modelled from the spec: a Resource is a set of key/value attributes;
insertion order is preserved for output but is not significant for equality
(spec section 3 and 4.1). -/
abbrev Resource := List AttrKV

/-- Modelled from the spec: an Instrumentation Scope is identified by a
(name, version) pair, where for each field an explicit absent value is
distinguished from the empty string (spec section 4.1). -/
structure Scope where
  name : Option String
  version : Option String
deriving DecidableEq, Repr

/-- Modelled from the spec: a Span has a name, trace/span identifiers,
start/end timestamps and an attribute set; the converter treats it as an
opaque payload copied structurally (spec section 3). -/
structure Span where
  name : String
  traceId : Nat
  spanId : Nat
  startTime : Nat
  endTime : Nat
  attributes : List AttrKV
deriving DecidableEq, Repr

/-- Modelled from the spec: a Scope Group of the Internal Trace Model. -/
structure ScopeSpans where
  scope : Scope
  spans : List Span
deriving DecidableEq, Repr

/-- Modelled from the spec: a Resource Group of the Internal Trace Model. -/
structure ResourceSpans where
  resource : Resource
  scopeSpans : List ScopeSpans
deriving DecidableEq, Repr

/-- Modelled from the spec: the Internal Trace Model, an ordered sequence of
Resource Groups. -/
abbrev Traces := List ResourceSpans

/-- Modelled from the spec: a wire-level Scope entry (structural mirror). -/
structure WireScopeSpans where
  scope : Scope
  spans : List Span
deriving DecidableEq, Repr

/-- Modelled from the spec: a wire-level Resource entry (structural mirror). -/
structure WireResourceSpans where
  resource : Resource
  scopeSpans : List WireScopeSpans
deriving DecidableEq, Repr

/-- Modelled from the spec: the Wire Trace Model, an ordered sequence of
wire-level Resource entries; no uniqueness invariant at this layer. -/
abbrev WireTraces := List WireResourceSpans

/-- Modelled from the spec: Resource equality — same attribute keys mapped to
the same values, insertion order not significant (spec section 4.1). -/
def resourceEq (a b : Resource) : Bool :=
  a.all (fun p => b.contains p) && b.all (fun p => a.contains p)

theorem resourceEq_iff (a b : Resource) :
    resourceEq a b = true ↔ ((∀ p ∈ a, p ∈ b) ∧ (∀ p ∈ b, p ∈ a)) := by
  simp [resourceEq, List.all_eq_true]

theorem resourceEq_refl (a : Resource) : resourceEq a a = true := by
  simp [resourceEq_iff]

theorem resourceEq_symm {a b : Resource} (h : resourceEq a b = true) :
    resourceEq b a = true := by
  rw [resourceEq_iff] at h ⊢
  exact ⟨h.2, h.1⟩

theorem resourceEq_trans {a b c : Resource} (h1 : resourceEq a b = true)
    (h2 : resourceEq b c = true) : resourceEq a c = true := by
  rw [resourceEq_iff] at h1 h2 ⊢
  exact ⟨fun p hp => h2.1 p (h1.1 p hp), fun p hp => h1.2 p (h2.2 p hp)⟩

/-- Modelled from the spec: `toWire` on one Scope Group — a field-for-field
structural copy (spec section 4.2). -/
def scopeToWire (sg : ScopeSpans) : WireScopeSpans :=
  ⟨sg.scope, sg.spans⟩

/-- Modelled from the spec: `toWire` on one Resource Group — emit one wire
Resource entry with the same attributes and one wire Scope entry per Scope
Group in sequence order (spec section 4.2). -/
def resourceToWire (rg : ResourceSpans) : WireResourceSpans :=
  ⟨rg.resource, rg.scopeSpans.map scopeToWire⟩

/-- Modelled from the spec: `toWire(internal) -> wire` — for each Resource
Group, in sequence order, emit one wire-level Resource entry (spec 4.2). -/
def toWire (m : Traces) : WireTraces :=
  m.map resourceToWire

/-- Modelled from the spec: fold one wire Scope entry into a list of Scope
Groups — spans of an entry whose scope equals an existing group's scope are
concatenated onto the first such group, otherwise a new group is appended
(spec section 4.3). -/
def insertScope : List ScopeSpans → WireScopeSpans → List ScopeSpans
  | [], ws => [⟨ws.scope, ws.spans⟩]
  | sg :: rest, ws =>
    if sg.scope = ws.scope then ⟨sg.scope, sg.spans ++ ws.spans⟩ :: rest
    else sg :: insertScope rest ws

/-- Modelled from the spec: fold one wire Resource entry into a list of
Resource Groups — an entry whose resource equals an existing group's resource
(by `resourceEq`) has its scope entries folded into the first such group,
keeping the first occurrence's attributes; otherwise a new group is appended
with the entry's own scope entries folded from empty (spec section 4.3). -/
def insertResource : List ResourceSpans → WireResourceSpans → List ResourceSpans
  | [], wr => [⟨wr.resource, wr.scopeSpans.foldl insertScope []⟩]
  | rg :: rest, wr =>
    if resourceEq rg.resource wr.resource then
      ⟨rg.resource, wr.scopeSpans.foldl insertScope rg.scopeSpans⟩ :: rest
    else rg :: insertResource rest wr

/-- Modelled from the spec: `toInternal(wire) -> internal` — fold wire-level
Resource entries into Resource Groups by equality, in encounter order
(spec section 4.3). -/
def toInternal (w : WireTraces) : Traces :=
  w.foldl insertResource []

/-- The no-duplicate invariant on Scope Groups under one Resource Group
(spec section 3): pairwise distinct scope identities. -/
def ScopeNodup (l : List ScopeSpans) : Prop :=
  l.Pairwise (fun a b => a.scope ≠ b.scope)

/-- The no-duplicate invariant on Resource Groups (spec section 3): pairwise
non-equal Resources, by the equality of section 4.1. -/
def ResNodup (l : List ResourceSpans) : Prop :=
  l.Pairwise (fun a b => resourceEq a.resource b.resource = false)

/-- The Internal Trace Model invariant of spec section 3: no two Resource
Groups share an equal Resource, and under each Resource Group no two Scope
Groups share an equal Scope. -/
def TracesInv (m : Traces) : Prop :=
  ResNodup m ∧ ∀ rg ∈ m, ScopeNodup rg.scopeSpans

instance : DecidablePred ScopeNodup := fun _ => by
  unfold ScopeNodup
  infer_instance

instance : DecidablePred ResNodup := fun _ => by
  unfold ResNodup
  infer_instance

instance (m : Traces) : Decidable (TracesInv m) := by
  unfold TracesInv
  infer_instance

/-- Modelled from the spec, section 4.3, stated as first-occurrence grouping:
the first wire Scope entry opens a group holding its spans followed by the
spans of every later entry with an equal scope, in encounter order; the
remaining entries are grouped recursively. -/
def gatherScopes : List WireScopeSpans → List ScopeSpans
  | [] => []
  | ws :: rest =>
    ⟨ws.scope,
      ws.spans ++ (rest.filter (fun x => ws.scope == x.scope)).flatMap (fun x => x.spans)⟩
      :: gatherScopes (rest.filter (fun x => !(ws.scope == x.scope)))
termination_by l => l.length
decreasing_by
  exact Nat.lt_succ_of_le (List.length_filter_le _ _)

/-- Modelled from the spec, section 4.3, stated as first-occurrence grouping:
the first wire Resource entry opens a group (its attributes are canonical, its
position is the first occurrence's) holding the grouped scope entries of all
entries with an equal resource, in encounter order; the remaining entries are
grouped recursively. -/
def gatherResources : WireTraces → Traces
  | [] => []
  | wr :: rest =>
    ⟨wr.resource,
      gatherScopes (wr.scopeSpans ++
        (rest.filter (fun x => resourceEq wr.resource x.resource)).flatMap
          (fun x => x.scopeSpans))⟩
      :: gatherResources (rest.filter (fun x => !(resourceEq wr.resource x.resource)))
termination_by l => l.length
decreasing_by
  exact Nat.lt_succ_of_le (List.length_filter_le _ _)

/-- Does some group in `acc` carry the scope of the wire entry `w`? -/
def scopeMatches (acc : List ScopeSpans) (w : WireScopeSpans) : Bool :=
  acc.any (fun sg => sg.scope == w.scope)

/-- Each group of `acc`, its spans extended by the spans of the entries of `l`
with an equal scope, in encounter order. -/
def extendScopes (acc : List ScopeSpans) (l : List WireScopeSpans) : List ScopeSpans :=
  acc.map (fun sg =>
    ⟨sg.scope,
      sg.spans ++ (l.filter (fun x => sg.scope == x.scope)).flatMap (fun x => x.spans)⟩)

/-- The entries of `l` whose scope no group of `acc` carries. -/
def dropScopes (acc : List ScopeSpans) (l : List WireScopeSpans) : List WireScopeSpans :=
  l.filter (fun x => !(scopeMatches acc x))

theorem scopeSpans_eta (sg : ScopeSpans) : (⟨sg.scope, sg.spans⟩ : ScopeSpans) = sg := rfl

theorem resourceSpans_eta (rg : ResourceSpans) :
    (⟨rg.resource, rg.scopeSpans⟩ : ResourceSpans) = rg := rfl

theorem scopeMatches_false_iff (acc : List ScopeSpans) (w : WireScopeSpans) :
    scopeMatches acc w = false ↔ ∀ sg ∈ acc, sg.scope ≠ w.scope := by
  simp [scopeMatches]

theorem scopeMatches_true_iff (acc : List ScopeSpans) (w : WireScopeSpans) :
    scopeMatches acc w = true ↔ ∃ sg ∈ acc, sg.scope = w.scope := by
  simp [scopeMatches]

theorem scopeNodup_iff_map (l : List ScopeSpans) :
    ScopeNodup l ↔ (l.map (fun sg => sg.scope)).Nodup := by
  simp [ScopeNodup, List.Nodup, List.pairwise_map]

theorem scopeMatches_map (acc : List ScopeSpans) (x : WireScopeSpans) :
    scopeMatches acc x = (acc.map (fun sg => sg.scope)).any (fun s => s == x.scope) := by
  induction acc with
  | nil => rfl
  | cons sg rest ih =>
    simp only [scopeMatches, List.any_cons, List.map_cons] at *
    rw [ih]

theorem scopeMatches_eq_of_map_eq {acc1 acc2 : List ScopeSpans}
    (h : acc1.map (fun sg => sg.scope) = acc2.map (fun sg => sg.scope))
    (x : WireScopeSpans) : scopeMatches acc1 x = scopeMatches acc2 x := by
  rw [scopeMatches_map, scopeMatches_map, h]

theorem insertScope_append (acc : List ScopeSpans) (w : WireScopeSpans)
    (h : ∀ sg ∈ acc, sg.scope ≠ w.scope) :
    insertScope acc w = acc ++ [⟨w.scope, w.spans⟩] := by
  induction acc with
  | nil => rfl
  | cons sg rest ih =>
    rw [insertScope, if_neg (h sg (List.mem_cons_self sg rest)), List.cons_append]
    exact congrArg _ (ih fun b hb => h b (List.mem_cons_of_mem sg hb))

theorem insertScope_map_scope (acc : List ScopeSpans) (w : WireScopeSpans)
    (h : ∃ sg ∈ acc, sg.scope = w.scope) :
    (insertScope acc w).map (fun sg => sg.scope) = acc.map (fun sg => sg.scope) := by
  induction acc with
  | nil => simp at h
  | cons sg rest ih =>
    by_cases hsg : sg.scope = w.scope
    · rw [insertScope, if_pos hsg]
      simp
    · rw [insertScope, if_neg hsg, List.map_cons, List.map_cons]
      refine congrArg _ (ih ?_)
      rcases h with ⟨b, hb, hbs⟩
      rcases List.mem_cons.mp hb with hbh | hbt
      · exact absurd (hbh ▸ hbs) hsg
      · exact ⟨b, hbt, hbs⟩

theorem extendScopes_insertScope (l : List WireScopeSpans) (acc : List ScopeSpans)
    (w : WireScopeSpans) (hnd : ScopeNodup acc) (hm : ∃ sg ∈ acc, sg.scope = w.scope) :
    extendScopes (insertScope acc w) l = extendScopes acc (w :: l) := by
  induction acc with
  | nil => simp at hm
  | cons sg rest ih =>
    rw [ScopeNodup, List.pairwise_cons] at hnd
    by_cases hsg : sg.scope = w.scope
    · rw [insertScope, if_pos hsg]
      simp only [extendScopes, List.map_cons]
      congr 1
      · have hw : (sg.scope == w.scope) = true := by simp [hsg]
        simp [List.filter_cons, hw, List.append_assoc]
      · refine List.map_congr_left fun b hb => ?_
        have hbs : (b.scope == w.scope) = false := by
          rw [beq_eq_false_iff_ne]
          exact fun hbw => (hnd.1 b hb) (hsg.trans hbw.symm)
        simp [List.filter_cons, hbs]
    · rw [insertScope, if_neg hsg]
      simp only [extendScopes, List.map_cons]
      congr 1
      · have hw : (sg.scope == w.scope) = false := by
          rw [beq_eq_false_iff_ne]
          exact hsg
        simp [List.filter_cons, hw]
      · have hm' : ∃ b ∈ rest, b.scope = w.scope := by
          rcases hm with ⟨b, hb, hbs⟩
          rcases List.mem_cons.mp hb with hbh | hbt
          · exact absurd (hbh ▸ hbs) hsg
          · exact ⟨b, hbt, hbs⟩
        exact ih (by rw [ScopeNodup]; exact hnd.2) hm'

theorem filter_dropScopes_eq (acc : List ScopeSpans) (l : List WireScopeSpans)
    (w : WireScopeSpans) (h : ∀ sg ∈ acc, sg.scope ≠ w.scope) :
    (dropScopes acc l).filter (fun x => w.scope == x.scope) =
      l.filter (fun x => w.scope == x.scope) := by
  rw [dropScopes, List.filter_filter]
  refine List.filter_congr fun x _ => ?_
  by_cases hx : w.scope = x.scope
  · have : scopeMatches acc x = false := by
      rw [scopeMatches_false_iff]
      exact fun sg hsg => hx ▸ h sg hsg
    simp [hx, this]
  · simp [hx]

theorem dropScopes_append_singleton (acc : List ScopeSpans) (l : List WireScopeSpans)
    (w : WireScopeSpans) :
    dropScopes (acc ++ [⟨w.scope, w.spans⟩]) l =
      (dropScopes acc l).filter (fun x => !(w.scope == x.scope)) := by
  rw [dropScopes, dropScopes, List.filter_filter]
  refine List.filter_congr fun x _ => ?_
  rw [scopeMatches, List.any_append]
  simp [scopeMatches, Bool.and_comm]

theorem foldl_insertScope_eq (l : List WireScopeSpans) : ∀ acc : List ScopeSpans,
    ScopeNodup acc →
    List.foldl insertScope acc l = extendScopes acc l ++ gatherScopes (dropScopes acc l) := by
  induction l with
  | nil =>
    intro acc _
    simp [extendScopes, dropScopes, gatherScopes, scopeSpans_eta]
  | cons w l ih =>
    intro acc hnd
    rw [List.foldl_cons]
    by_cases hm : ∃ sg ∈ acc, sg.scope = w.scope
    · have h1 := insertScope_map_scope acc w hm
      have hnd' : ScopeNodup (insertScope acc w) := by
        rw [scopeNodup_iff_map, h1, ← scopeNodup_iff_map]
        exact hnd
      rw [ih _ hnd', extendScopes_insertScope l acc w hnd hm]
      congr 1
      have e1 : dropScopes (insertScope acc w) l = dropScopes acc l := by
        rw [dropScopes, dropScopes]
        exact List.filter_congr fun x _ => by
          rw [scopeMatches_eq_of_map_eq h1]
      have e2 : dropScopes acc (w :: l) = dropScopes acc l := by
        have ht : scopeMatches acc w = true := (scopeMatches_true_iff acc w).mpr hm
        rw [dropScopes, dropScopes]
        simp [List.filter_cons, ht]
      rw [e1, e2]
    · push_neg at hm
      have hmf : scopeMatches acc w = false := (scopeMatches_false_iff acc w).mpr hm
      rw [insertScope_append acc w hm]
      have hnd' : ScopeNodup (acc ++ [⟨w.scope, w.spans⟩]) := by
        rw [ScopeNodup, List.pairwise_append]
        refine ⟨hnd, List.pairwise_singleton _ _, fun a ha b hb => ?_⟩
        rw [List.mem_singleton] at hb
        subst hb
        exact hm a ha
      rw [ih _ hnd']
      have eext : extendScopes acc (w :: l) = extendScopes acc l := by
        refine List.map_congr_left fun sg hsg => ?_
        have hw : (sg.scope == w.scope) = false := by
          rw [beq_eq_false_iff_ne]
          exact hm sg hsg
        simp [List.filter_cons, hw]
      have edrop : dropScopes acc (w :: l) = w :: dropScopes acc l := by
        rw [dropScopes, dropScopes]
        simp [List.filter_cons, hmf]
      rw [eext, edrop, gatherScopes]
      rw [filter_dropScopes_eq acc l w hm, ← dropScopes_append_singleton acc l w]
      rw [extendScopes, List.map_append, ← extendScopes, ← extendScopes]
      simp [extendScopes]

theorem gatherScopes_eq_foldl (l : List WireScopeSpans) :
    List.foldl insertScope [] l = gatherScopes l := by
  have h := foldl_insertScope_eq l [] (by rw [ScopeNodup]; exact List.Pairwise.nil)
  rw [h]
  have : dropScopes [] l = l := by
    rw [dropScopes]
    refine List.filter_eq_self.mpr fun x _ => ?_
    simp [scopeMatches]
  rw [this, extendScopes, List.map_nil, List.nil_append]

theorem gatherScopes_map (sgs : List ScopeSpans) (h : ScopeNodup sgs) :
    gatherScopes (sgs.map scopeToWire) = sgs := by
  induction sgs with
  | nil => rw [List.map_nil, gatherScopes]
  | cons sg rest ih =>
    rw [ScopeNodup, List.pairwise_cons] at h
    rw [List.map_cons, gatherScopes]
    have h1 : (rest.map scopeToWire).filter
        (fun x => (scopeToWire sg).scope == x.scope) = [] := by
      refine List.filter_eq_nil_iff.mpr fun x hx => ?_
      rcases List.mem_map.mp hx with ⟨b, hb, rfl⟩
      simp [scopeToWire]
      exact h.1 b hb
    have h2 : (rest.map scopeToWire).filter
        (fun x => !((scopeToWire sg).scope == x.scope)) = rest.map scopeToWire := by
      refine List.filter_eq_self.mpr fun x hx => ?_
      rcases List.mem_map.mp hx with ⟨b, hb, rfl⟩
      simp [scopeToWire]
      exact h.1 b hb
    rw [h1, h2]
    congr 1
    · simp [scopeToWire]
    · exact ih (by rw [ScopeNodup]; exact h.2)

theorem mem_gatherScopes_scope (l : List WireScopeSpans) :
    ∀ sg ∈ gatherScopes l, ∃ x ∈ l, sg.scope = x.scope := by
  induction l using gatherScopes.induct with
  | case1 =>
    intro sg h
    rw [gatherScopes] at h
    simp at h
  | case2 ws rest ih =>
    intro sg h
    rw [gatherScopes] at h
    rcases List.mem_cons.mp h with hh | ht
    · exact ⟨ws, List.mem_cons_self _ _, by rw [hh]⟩
    · rcases ih sg ht with ⟨x, hx, hsx⟩
      exact ⟨x, List.mem_cons_of_mem _ (List.mem_of_mem_filter hx), hsx⟩

theorem scopeNodup_gatherScopes (l : List WireScopeSpans) :
    ScopeNodup (gatherScopes l) := by
  induction l using gatherScopes.induct with
  | case1 =>
    rw [gatherScopes, ScopeNodup]
    exact List.Pairwise.nil
  | case2 ws rest ih =>
    rw [gatherScopes, ScopeNodup, List.pairwise_cons]
    refine ⟨fun b hb => ?_, by rw [ScopeNodup] at ih; exact ih⟩
    rcases mem_gatherScopes_scope _ b hb with ⟨x, hx, hbx⟩
    have hpx := List.of_mem_filter hx
    simp at hpx
    intro he
    exact hpx (by rw [← hbx, ← he])

/-- Does some group in `acc` carry a resource equal to that of the wire
entry `w`? -/
def resMatches (acc : List ResourceSpans) (w : WireResourceSpans) : Bool :=
  acc.any (fun rg => resourceEq rg.resource w.resource)

/-- Each group of `acc`, the scope entries of the entries of `W` with an
equal resource folded into it, in encounter order. -/
def extendResources (acc : List ResourceSpans) (W : List WireResourceSpans) :
    List ResourceSpans :=
  acc.map (fun rg =>
    ⟨rg.resource,
      List.foldl insertScope rg.scopeSpans
        ((W.filter (fun x => resourceEq rg.resource x.resource)).flatMap
          (fun x => x.scopeSpans))⟩)

/-- The entries of `W` whose resource no group of `acc` carries. -/
def dropRes (acc : List ResourceSpans) (W : List WireResourceSpans) :
    List WireResourceSpans :=
  W.filter (fun x => !(resMatches acc x))

theorem resMatches_false_iff (acc : List ResourceSpans) (w : WireResourceSpans) :
    resMatches acc w = false ↔ ∀ rg ∈ acc, resourceEq rg.resource w.resource = false := by
  simp [resMatches]

theorem resMatches_true_iff (acc : List ResourceSpans) (w : WireResourceSpans) :
    resMatches acc w = true ↔ ∃ rg ∈ acc, resourceEq rg.resource w.resource = true := by
  simp [resMatches]

theorem resMatches_map (acc : List ResourceSpans) (x : WireResourceSpans) :
    resMatches acc x = (acc.map (fun rg => rg.resource)).any
      (fun r => resourceEq r x.resource) := by
  induction acc with
  | nil => rfl
  | cons rg rest ih =>
    simp only [resMatches, List.any_cons, List.map_cons] at *
    rw [ih]

theorem resMatches_eq_of_map_eq {acc1 acc2 : List ResourceSpans}
    (h : acc1.map (fun rg => rg.resource) = acc2.map (fun rg => rg.resource))
    (x : WireResourceSpans) : resMatches acc1 x = resMatches acc2 x := by
  rw [resMatches_map, resMatches_map, h]

theorem insertResource_append (acc : List ResourceSpans) (w : WireResourceSpans)
    (h : ∀ rg ∈ acc, resourceEq rg.resource w.resource = false) :
    insertResource acc w = acc ++ [⟨w.resource, w.scopeSpans.foldl insertScope []⟩] := by
  induction acc with
  | nil => rfl
  | cons rg rest ih =>
    rw [insertResource, if_neg (by simp [h rg (List.mem_cons_self rg rest)]),
      List.cons_append]
    exact congrArg _ (ih fun b hb => h b (List.mem_cons_of_mem rg hb))

theorem insertResource_map_resource (acc : List ResourceSpans) (w : WireResourceSpans)
    (h : ∃ rg ∈ acc, resourceEq rg.resource w.resource = true) :
    (insertResource acc w).map (fun rg => rg.resource) =
      acc.map (fun rg => rg.resource) := by
  induction acc with
  | nil => simp at h
  | cons rg rest ih =>
    by_cases hr : resourceEq rg.resource w.resource = true
    · rw [insertResource, if_pos hr]
      simp
    · rw [insertResource, if_neg hr, List.map_cons, List.map_cons]
      refine congrArg _ (ih ?_)
      rcases h with ⟨b, hb, hbs⟩
      rcases List.mem_cons.mp hb with hbh | hbt
      · exact absurd (hbh ▸ hbs) hr
      · exact ⟨b, hbt, hbs⟩

theorem resNodup_iff_map (l : List ResourceSpans) :
    ResNodup l ↔ (l.map (fun rg => rg.resource)).Pairwise
      (fun a b => resourceEq a b = false) := by
  rw [ResNodup, List.pairwise_map]

theorem extendResources_insertResource (W : List WireResourceSpans)
    (acc : List ResourceSpans) (w : WireResourceSpans) (hnd : ResNodup acc)
    (hm : ∃ rg ∈ acc, resourceEq rg.resource w.resource = true) :
    extendResources (insertResource acc w) W = extendResources acc (w :: W) := by
  induction acc with
  | nil => simp at hm
  | cons rg rest ih =>
    rw [ResNodup, List.pairwise_cons] at hnd
    by_cases hr : resourceEq rg.resource w.resource = true
    · rw [insertResource, if_pos hr]
      simp only [extendResources, List.map_cons]
      congr 1
      · simp [List.filter_cons, hr, List.foldl_append]
      · refine List.map_congr_left fun b hb => ?_
        have hbw : resourceEq b.resource w.resource = false := by
          rcases Bool.eq_false_or_eq_true (resourceEq b.resource w.resource) with ht | hf
          · exact absurd (resourceEq_trans hr (resourceEq_symm ht)) (by
              simp [hnd.1 b hb])
          · exact hf
        simp [List.filter_cons, hbw]
    · rw [insertResource, if_neg hr]
      simp only [extendResources, List.map_cons]
      congr 1
      · have hrf : resourceEq rg.resource w.resource = false :=
          Bool.eq_false_iff.mpr hr
        simp [List.filter_cons, hrf]
      · have hm' : ∃ b ∈ rest, resourceEq b.resource w.resource = true := by
          rcases hm with ⟨b, hb, hbs⟩
          rcases List.mem_cons.mp hb with hbh | hbt
          · exact absurd (hbh ▸ hbs) hr
          · exact ⟨b, hbt, hbs⟩
        exact ih (by rw [ResNodup]; exact hnd.2) hm'

theorem filter_dropRes_eq (acc : List ResourceSpans) (W : List WireResourceSpans)
    (w : WireResourceSpans)
    (h : ∀ rg ∈ acc, resourceEq rg.resource w.resource = false) :
    (dropRes acc W).filter (fun x => resourceEq w.resource x.resource) =
      W.filter (fun x => resourceEq w.resource x.resource) := by
  rw [dropRes, List.filter_filter]
  refine List.filter_congr fun x _ => ?_
  rcases Bool.eq_false_or_eq_true (resourceEq w.resource x.resource) with ht | hf
  · have hmf : resMatches acc x = false := by
      rw [resMatches_false_iff]
      intro rg hrg
      rcases Bool.eq_false_or_eq_true (resourceEq rg.resource x.resource) with ht2 | hf2
      · exact absurd (resourceEq_trans ht2 (resourceEq_symm ht)) (by simp [h rg hrg])
      · exact hf2
    simp [ht, hmf]
  · simp [hf]

theorem dropRes_append_singleton (acc : List ResourceSpans)
    (W : List WireResourceSpans) (w : WireResourceSpans) (s : List ScopeSpans) :
    dropRes (acc ++ [⟨w.resource, s⟩]) W =
      (dropRes acc W).filter (fun x => !(resourceEq w.resource x.resource)) := by
  rw [dropRes, dropRes, List.filter_filter]
  refine List.filter_congr fun x _ => ?_
  rw [resMatches, List.any_append]
  simp [resMatches, Bool.and_comm]

theorem foldl_insertResource_eq (W : List WireResourceSpans) :
    ∀ acc : List ResourceSpans, ResNodup acc →
    List.foldl insertResource acc W =
      extendResources acc W ++ gatherResources (dropRes acc W) := by
  induction W with
  | nil =>
    intro acc _
    simp [extendResources, dropRes, gatherResources, resourceSpans_eta]
  | cons w W ih =>
    intro acc hnd
    rw [List.foldl_cons]
    by_cases hm : ∃ rg ∈ acc, resourceEq rg.resource w.resource = true
    · have h1 := insertResource_map_resource acc w hm
      have hnd' : ResNodup (insertResource acc w) := by
        rw [resNodup_iff_map, h1, ← resNodup_iff_map]
        exact hnd
      rw [ih _ hnd', extendResources_insertResource W acc w hnd hm]
      congr 1
      have e1 : dropRes (insertResource acc w) W = dropRes acc W := by
        rw [dropRes, dropRes]
        exact List.filter_congr fun x _ => by
          rw [resMatches_eq_of_map_eq h1]
      have e2 : dropRes acc (w :: W) = dropRes acc W := by
        have ht : resMatches acc w = true := (resMatches_true_iff acc w).mpr hm
        rw [dropRes, dropRes]
        simp [List.filter_cons, ht]
      rw [e1, e2]
    · push_neg at hm
      have hm' : ∀ rg ∈ acc, resourceEq rg.resource w.resource = false := fun rg hrg =>
        Bool.eq_false_iff.mpr (hm rg hrg)
      have hmf : resMatches acc w = false := (resMatches_false_iff acc w).mpr hm'
      rw [insertResource_append acc w hm']
      have hnd' : ResNodup
          (acc ++ [⟨w.resource, w.scopeSpans.foldl insertScope []⟩]) := by
        rw [ResNodup, List.pairwise_append]
        refine ⟨hnd, List.pairwise_singleton _ _, fun a ha b hb => ?_⟩
        rw [List.mem_singleton] at hb
        subst hb
        exact hm' a ha
      rw [ih _ hnd']
      have eext : extendResources acc (w :: W) = extendResources acc W := by
        refine List.map_congr_left fun rg hrg => ?_
        simp [List.filter_cons, hm' rg hrg]
      have edrop : dropRes acc (w :: W) = w :: dropRes acc W := by
        rw [dropRes, dropRes]
        simp [List.filter_cons, hmf]
      rw [eext, edrop, gatherResources]
      rw [filter_dropRes_eq acc W w hm',
        ← dropRes_append_singleton acc W w (w.scopeSpans.foldl insertScope [])]
      rw [extendResources, List.map_append, ← extendResources, ← extendResources]
      simp [extendResources, ← gatherScopes_eq_foldl, List.foldl_append]

theorem toInternal_eq_gather (W : WireTraces) : toInternal W = gatherResources W := by
  rw [toInternal,
    foldl_insertResource_eq W [] (by rw [ResNodup]; exact List.Pairwise.nil)]
  have h : dropRes [] W = W := by
    rw [dropRes]
    refine List.filter_eq_self.mpr fun x _ => ?_
    simp [resMatches]
  rw [h, extendResources, List.map_nil, List.nil_append]

theorem gatherResources_toWire : ∀ m : Traces, TracesInv m →
    gatherResources (toWire m) = m := by
  intro m
  induction m with
  | nil =>
    intro _
    rw [toWire, List.map_nil, gatherResources]
  | cons rg rest ih =>
    intro h
    obtain ⟨hres, hscope⟩ := h
    rw [ResNodup, List.pairwise_cons] at hres
    rw [toWire, List.map_cons, gatherResources]
    have h1 : (rest.map resourceToWire).filter
        (fun x => resourceEq (resourceToWire rg).resource x.resource) = [] := by
      refine List.filter_eq_nil_iff.mpr fun x hx => ?_
      rcases List.mem_map.mp hx with ⟨b, hb, rfl⟩
      simp [resourceToWire, hres.1 b hb]
    have h2 : (rest.map resourceToWire).filter
        (fun x => !(resourceEq (resourceToWire rg).resource x.resource)) =
          rest.map resourceToWire := by
      refine List.filter_eq_self.mpr fun x hx => ?_
      rcases List.mem_map.mp hx with ⟨b, hb, rfl⟩
      simp [resourceToWire, hres.1 b hb]
    rw [h1, h2]
    congr 1
    · simp [resourceToWire,
        gatherScopes_map rg.scopeSpans (hscope rg (List.mem_cons_self rg rest))]
    · rw [← toWire]
      exact ih ⟨by rw [ResNodup]; exact hres.2,
        fun b hb => hscope b (List.mem_cons_of_mem _ hb)⟩

theorem mem_gatherResources_resource (W : WireTraces) :
    ∀ rg ∈ gatherResources W, ∃ x ∈ W, rg.resource = x.resource := by
  induction W using gatherResources.induct with
  | case1 =>
    intro rg h
    rw [gatherResources] at h
    simp at h
  | case2 w rest ih =>
    intro rg h
    rw [gatherResources] at h
    rcases List.mem_cons.mp h with hh | ht
    · exact ⟨w, List.mem_cons_self _ _, by rw [hh]⟩
    · rcases ih rg ht with ⟨x, hx, hrx⟩
      exact ⟨x, List.mem_cons_of_mem _ (List.mem_of_mem_filter hx), hrx⟩

theorem tracesInv_gatherResources (W : WireTraces) :
    TracesInv (gatherResources W) := by
  induction W using gatherResources.induct with
  | case1 =>
    rw [gatherResources]
    exact ⟨by rw [ResNodup]; exact List.Pairwise.nil, by simp⟩
  | case2 w rest ih =>
    obtain ⟨ihres, ihscope⟩ := ih
    rw [gatherResources]
    constructor
    · rw [ResNodup, List.pairwise_cons]
      refine ⟨fun b hb => ?_, by rw [ResNodup] at ihres; exact ihres⟩
      rcases mem_gatherResources_resource _ b hb with ⟨x, hx, hbx⟩
      have hpx := List.of_mem_filter hx
      simp at hpx
      simpa [hbx] using hpx
    · intro rg hrg
      rcases List.mem_cons.mp hrg with hh | ht
      · rw [hh]
        exact scopeNodup_gatherScopes _
      · exact ihscope rg ht

theorem tracesInv_toInternal (W : WireTraces) : TracesInv (toInternal W) := by
  rw [toInternal_eq_gather]
  exact tracesInv_gatherResources W

theorem roundTrip (m : Traces) (h : TracesInv m) : toInternal (toWire m) = m := by
  rw [toInternal_eq_gather]
  exact gatherResources_toWire m h

theorem toInternal_idem (W : WireTraces) :
    toInternal (toWire (toInternal W)) = toInternal W :=
  roundTrip _ (tracesInv_toInternal W)

/-- A Go error value as observed by `loggerSync` in `logging_exporter.go`:
either an `*os.PathError` (with its `Op`, `Path` and the wrapped error
returned by `Unwrap`) or any other non-nil error value. -/
inductive GoError where
  | pathError (op path : String) (err : GoError)
  | other (msg : String)
deriving DecidableEq, Repr

/-- `loggerSync` of `logging_exporter.go`: the shutdown function runs the
logger's `Sync()`, whose result is the argument `syncErr` (`none` stands for
a nil error); when the error is an `*os.PathError` whose unwrapped error
`knownSyncError` recognizes, it is replaced by nil, otherwise the error is
returned unchanged.  `knownSyncError` is platform specific and not among the
provided sources, so it is taken as a parameter. -/
def loggerSync (knownSyncError : GoError → Bool) (syncErr : Option GoError) :
    Option GoError :=
  match syncErr with
  | some (GoError.pathError op path werr) =>
    if knownSyncError werr then none else some (GoError.pathError op path werr)
  | e => e

/-- Modelled from the spec: `pdata.Metrics` is an external collaborator type;
the logging exporter observes only its record count. -/
structure Metrics where
  metricCount : Nat
deriving DecidableEq, Repr

/-- Modelled from the spec: `pdata.Logs`, observed only through its record
count. -/
structure Logs where
  logRecordCount : Nat
deriving DecidableEq, Repr

/-- Modelled from the spec: `pdata.Traces.SpanCount`, the total number of
spans in the model. -/
def spanCount (td : Traces) : Nat :=
  (td.map (fun rg => (rg.scopeSpans.map (fun sg => sg.spans.length)).sum)).sum

/-- One record written to the zap logger, as far as this layer observes it:
an Info line carrying a record count, or a Debug dump of the full data. -/
inductive LogEntry where
  | info (msg : String) (count : Nat)
  | traceDump (td : Traces)
  | metricDump (md : Metrics)
  | logDump (ld : Logs)
deriving DecidableEq, Repr

/-- The `loggingExporter` struct of `logging_exporter.go`. -/
structure LoggingExporter where
  debug : Bool
deriving DecidableEq, Repr

/-- `pushTraceData` of `logging_exporter.go`: log the span count at Info,
then, only when debug is set, dump the data at Debug; return nil in every
case. -/
def pushTraceData (s : LoggingExporter) (td : Traces) :
    List LogEntry × Option GoError :=
  let base := [LogEntry.info "TracesExporter" (spanCount td)]
  if !s.debug then (base, none)
  else (base ++ [LogEntry.traceDump td], none)

/-- `pushMetricsData` of `logging_exporter.go`. -/
def pushMetricsData (s : LoggingExporter) (md : Metrics) :
    List LogEntry × Option GoError :=
  let base := [LogEntry.info "MetricsExporter" md.metricCount]
  if !s.debug then (base, none)
  else (base ++ [LogEntry.metricDump md], none)

/-- `pushLogData` of `logging_exporter.go`. -/
def pushLogData (s : LoggingExporter) (ld : Logs) :
    List LogEntry × Option GoError :=
  let base := [LogEntry.info "LogsExporter" ld.logRecordCount]
  if !s.debug then (base, none)
  else (base ++ [LogEntry.logDump ld], none)

/-- Go's `strings.ToLower` as used on the level string: lowercase every
character of the string (the level strings compared against are ASCII). -/
def stringToLower (s : String) : String :=
  ⟨s.data.map Char.toLower⟩

/-- The exporter state built by `newTracesExporter` of `logging_exporter.go`:
the debug dump is enabled iff the configured level string, lowercased, equals
the string debug. -/
def newTracesExporter (level : String) : LoggingExporter :=
  { debug := stringToLower level == "debug" }

/-- The exporter state built by `newMetricsExporter`. -/
def newMetricsExporter (level : String) : LoggingExporter :=
  { debug := stringToLower level == "debug" }

/-- The exporter state built by `newLogsExporter`. -/
def newLogsExporter (level : String) : LoggingExporter :=
  { debug := stringToLower level == "debug" }

/-- Is this log entry a human-readable data dump (as opposed to the count
line)? -/
def isDump : LogEntry → Bool
  | LogEntry.info _ _ => false
  | _ => true

/-- Does the output of a push call contain a human-readable dump? -/
def emitsDump (out : List LogEntry) : Bool :=
  out.any isDump

/-- Claim C1: round-trip identity — for every Internal Trace Model satisfying
the no-duplicate-group invariant of section 3, `toInternal (toWire M)` is
structurally equal to `M`, group by group, scope by scope, span by span,
including empty groups and their position. -/
theorem c1_round_trip (M : Traces) (h : TracesInv M) :
    toInternal (toWire M) = M :=
  roundTrip M h

theorem c1_round_trip_witness :
    toInternal (toWire
      [⟨[("service.name", "a")], [⟨⟨some "lib", some "v1"⟩,
        [⟨"S1", 1, 2, 3, 4, []⟩]⟩, ⟨⟨none, none⟩, []⟩]⟩, ⟨[], []⟩]) =
      [⟨[("service.name", "a")], [⟨⟨some "lib", some "v1"⟩,
        [⟨"S1", 1, 2, 3, 4, []⟩]⟩, ⟨⟨none, none⟩, []⟩]⟩, ⟨[], []⟩] :=
  c1_round_trip _ (by decide)

/-- Claim C2: idempotent ungrouping — for every Wire Trace Model `W`,
including ones with duplicate Resource or Scope entries,
`toInternal (toWire (toInternal W)) = toInternal W`: the second fold merges
nothing further because the first pass already deduplicated keys. -/
theorem c2_idempotent (W : WireTraces) :
    toInternal (toWire (toInternal W)) = toInternal W :=
  toInternal_idem W

/-- Claim C3: empty-structure preservation — one Resource Group with zero
Scope Groups converts to one wire entry with zero nested entries and back to
itself, and likewise a Scope Group with zero Spans; empty groups are never
dropped in either direction. -/
theorem c3_empty_preserved (r : Resource) (s : Scope) :
    toWire [⟨r, []⟩] = [⟨r, []⟩] ∧
    toInternal (toWire [⟨r, []⟩]) = [⟨r, []⟩] ∧
    toWire [⟨r, [⟨s, []⟩]⟩] = [⟨r, [⟨s, []⟩]⟩] ∧
    toInternal (toWire [⟨r, [⟨s, []⟩]⟩]) = [⟨r, [⟨s, []⟩]⟩] :=
  ⟨rfl, rfl, rfl, rfl⟩

/-- Claim C4: order preservation in `toWire` — for every Internal Trace Model
satisfying the section 3 invariant, the wire output lists Resource entries in
input order, Scope entries within each Resource in input order, and the Spans
within each Scope unchanged (hence in input order, fields copied without
reinterpretation). -/
theorem c4_order_preserved (M : Traces) (h : TracesInv M) :
    (toWire M).length = M.length ∧
    (∀ i : Nat, ((toWire M)[i]?).map (fun e => e.resource) =
      (M[i]?).map (fun g => g.resource)) ∧
    (∀ i : Nat, ((toWire M)[i]?).map (fun e => e.scopeSpans.length) =
      (M[i]?).map (fun g => g.scopeSpans.length)) ∧
    (∀ i j : Nat, (((toWire M)[i]?).bind (fun e => e.scopeSpans[j]?)).map
        (fun sc => sc.scope) =
      ((M[i]?).bind (fun g => g.scopeSpans[j]?)).map (fun sg => sg.scope)) ∧
    (∀ i j : Nat, (((toWire M)[i]?).bind (fun e => e.scopeSpans[j]?)).map
        (fun sc => sc.spans) =
      ((M[i]?).bind (fun g => g.scopeSpans[j]?)).map (fun sg => sg.spans)) := by
  refine ⟨by simp [toWire], fun i => ?_, fun i => ?_, fun i j => ?_, fun i j => ?_⟩
  · cases hM : M[i]? <;> simp [toWire, List.getElem?_map, hM, resourceToWire]
  · cases hM : M[i]? <;> simp [toWire, List.getElem?_map, hM, resourceToWire]
  · cases hM : M[i]? with
    | none => simp [toWire, List.getElem?_map, hM]
    | some g =>
      cases hj : g.scopeSpans[j]? <;>
        simp [toWire, List.getElem?_map, hM, hj, resourceToWire, scopeToWire]
  · cases hM : M[i]? with
    | none => simp [toWire, List.getElem?_map, hM]
    | some g =>
      cases hj : g.scopeSpans[j]? <;>
        simp [toWire, List.getElem?_map, hM, hj, resourceToWire, scopeToWire]

theorem c4_order_preserved_witness :
    (toWire [(⟨[("k", "v")], [⟨⟨some "lib", none⟩, []⟩]⟩ : ResourceSpans)]).length =
      [(⟨[("k", "v")], [⟨⟨some "lib", none⟩, []⟩]⟩ : ResourceSpans)].length :=
  (c4_order_preserved _ (by decide)).1

/-- Claim C5: fold semantics of `toInternal` — folding the wire sequence is
exactly first-occurrence grouping as `gatherResources` states it from the
spec's words: entries fold by Resource equality and, within a group, Scope
entries fold by Scope equality; a merged group sits at the position of the
first occurrence and keeps the first occurrence's attributes, and the spans
of all entries with the same (Resource, Scope) key are concatenated in the
relative order they were encountered across the wire sequence. -/
theorem c5_fold_semantics (W : WireTraces) :
    toInternal W = gatherResources W :=
  toInternal_eq_gather W

/-- Claim C6: directional asymmetry on duplicate Resources — an internal
model with two Resource Groups carrying equal Resource attribute sets (an
invariant violation) still produces two separate wire entries under `toWire`,
while `toInternal` of that wire output folds them into a single group. -/
theorem c6_asymmetry (r1 r2 : Resource) (s1 s2 : List ScopeSpans)
    (h : resourceEq r1 r2 = true) :
    (toWire [⟨r1, s1⟩, ⟨r2, s2⟩]).length = 2 ∧
    ((toWire [⟨r1, s1⟩, ⟨r2, s2⟩])[0]?).map (fun e => e.resource) = some r1 ∧
    ((toWire [⟨r1, s1⟩, ⟨r2, s2⟩])[1]?).map (fun e => e.resource) = some r2 ∧
    (toInternal (toWire [⟨r1, s1⟩, ⟨r2, s2⟩])).length = 1 := by
  refine ⟨rfl, rfl, rfl, ?_⟩
  have e1 : toInternal (toWire [⟨r1, s1⟩, ⟨r2, s2⟩]) =
      insertResource [⟨r1, ((s1.map scopeToWire).foldl insertScope [])⟩]
        (resourceToWire ⟨r2, s2⟩) := rfl
  rw [e1, insertResource, if_pos (by simpa [resourceToWire] using h)]
  rfl

theorem c6_asymmetry_witness :
    (toWire [⟨[("k", "v")], []⟩, ⟨[("k", "v")], []⟩]).length = 2 ∧
    (toInternal (toWire [⟨[("k", "v")], []⟩, ⟨[("k", "v")], []⟩])).length = 1 :=
  ⟨(c6_asymmetry [("k", "v")] [("k", "v")] [] [] (by decide)).1,
   (c6_asymmetry [("k", "v")] [("k", "v")] [] [] (by decide)).2.2.2⟩

/-- Claim C7: converter totality — both directions always produce a result
(they are total functions of the model, with no conversion-error outcome);
in particular the empty Internal Trace Model converts to the empty Wire
Trace Model and conversely, rather than an error. -/
theorem c7_total :
    toWire ([] : Traces) = [] ∧ toInternal ([] : WireTraces) = [] ∧
    (∀ m : Traces, ∃ w : WireTraces, toWire m = w) ∧
    (∀ w : WireTraces, ∃ m : Traces, toInternal w = m) :=
  ⟨rfl, rfl, fun m => ⟨toWire m, rfl⟩, fun w => ⟨toInternal w, rfl⟩⟩

/-- Claim C8: logger sync error suppression — the shutdown sync function
returns nil exactly when the underlying `Sync()` result is nil or an
`*os.PathError` wrapping an error recognized by `knownSyncError`; every
error value not of that recognized shape is returned unchanged (and a nil
error stays nil). -/
theorem c8_logger_sync (ks : GoError → Bool) (e : Option GoError) :
    (loggerSync ks e = none ↔
      (e = none ∨ ∃ op p w, e = some (GoError.pathError op p w) ∧ ks w = true)) ∧
    ((¬ ∃ op p w, e = some (GoError.pathError op p w) ∧ ks w = true) →
      loggerSync ks e = e) := by
  constructor
  · cases e with
    | none => simp [loggerSync]
    | some g =>
      cases g with
      | pathError op p w =>
        by_cases hk : ks w = true
        · simp [loggerSync, hk]
          exact ⟨op, p, w, ⟨rfl, rfl, rfl⟩, hk⟩
        · simp [loggerSync, hk]
      | other m => simp [loggerSync]
  · intro hne
    cases e with
    | none => rfl
    | some g =>
      cases g with
      | pathError op p w =>
        have hk : ks w = false := by
          rcases Bool.eq_false_or_eq_true (ks w) with ht | hf
          · exact absurd ⟨op, p, w, rfl, ht⟩ hne
          · exact hf
        simp [loggerSync, hk]
      | other m => rfl

theorem c8_logger_sync_witness :
    loggerSync (fun _ => false) (some (GoError.other "sync failed")) =
      some (GoError.other "sync failed") :=
  (c8_logger_sync (fun _ => false) (some (GoError.other "sync failed"))).2
    (by simp)

/-- Claim C9: the push functions never fail — for every exporter state and
every input, `pushTraceData`, `pushMetricsData` and `pushLogData` return a
nil error, regardless of the data's contents. -/
theorem c9_push_never_fails (s : LoggingExporter) (td : Traces) (md : Metrics)
    (ld : Logs) :
    (pushTraceData s td).2 = none ∧ (pushMetricsData s md).2 = none ∧
      (pushLogData s ld).2 = none := by
  cases hd : s.debug <;>
    simp [pushTraceData, pushMetricsData, pushLogData, hd]

/-- Claim C10: case-insensitive debug level — the dump path of the trace
push is taken iff the configured level string, lowercased, equals the string
debug; for any other level only the count line is logged. -/
theorem c10_debug_level (level : String) (td : Traces) :
    (emitsDump (pushTraceData (newTracesExporter level) td).1 = true ↔
      stringToLower level = "debug") ∧
    (stringToLower level ≠ "debug" →
      (pushTraceData (newTracesExporter level) td).1 =
        [LogEntry.info "TracesExporter" (spanCount td)]) := by
  constructor
  · by_cases h : stringToLower level = "debug"
    · have hb : (stringToLower level == "debug") = true := by
        rw [beq_iff_eq]
        exact h
      simp [pushTraceData, newTracesExporter, emitsDump, isDump, hb, h]
    · have hb : (stringToLower level == "debug") = false := by
        rw [beq_eq_false_iff_ne]
        exact h
      simp [pushTraceData, newTracesExporter, emitsDump, isDump, hb, h]
  · intro h
    have hb : (stringToLower level == "debug") = false := by
      rw [beq_eq_false_iff_ne]
      exact h
    simp [pushTraceData, newTracesExporter, hb]

theorem c10_debug_level_witness :
    emitsDump (pushTraceData (newTracesExporter "DEBUG") []).1 = true ∧
    emitsDump (pushTraceData (newTracesExporter "Debug") []).1 = true ∧
    (pushTraceData (newTracesExporter "info") []).1 =
      [LogEntry.info "TracesExporter" (spanCount [])] :=
  ⟨(c10_debug_level "DEBUG" []).1.mpr (by decide),
   (c10_debug_level "Debug" []).1.mpr (by decide),
   (c10_debug_level "info" []).2 (by decide)⟩

end Otel
